import Mathlib

/-!
Shallow embedding of `redis-top-keys-analyzer.py`: the scan loop that buckets
`(memory, key)` observations by Redis type tag, the descending sort-and-take-10
ranking per type, and the per-type report loop. Machine integers are modelled
as `Nat` (memory sizes and counters never overflow in the claims considered);
the Redis client calls are modelled as environment-supplied data: each listed
key comes with the outcome of inspecting it.
-/

namespace RedisTopKeys

/-- An observation stored in a type bucket: the `(mem, key)` pair appended by
`type_keys[key_type].append((mem, key))`. -/
abbrev Obs := Nat × String

/-- Outcome of inspecting one key, covering `r.memory_usage(key)` and
`r.type(key)` together: either some exception was raised (`Except.error`),
or both calls returned, giving the optional memory footprint and the type
tag string. -/
abbrev Insp := Except Unit (Option Nat × String)

/-- A key listed by the scanner, together with its inspection outcome. -/
abbrev Item := String × Insp

/-- Python truthiness of the memory value tested by `if mem:`:
`None` and `0` are falsy, every other integer is truthy. -/
def truthy : Option Nat → Bool
  | none => false
  | some m => m != 0

/-- The `type_keys` defaultdict: an association list from type tag to the
bucket of observations of that type, entries created in first-append order. -/
abbrev Buckets := List (String × List Obs)

/-- Dictionary lookup `type_keys[t]`, returning `[]` for an absent type. -/
def getBucket : Buckets → String → List Obs
  | [], _ => []
  | (t, l) :: rest, ty => if t = ty then l else getBucket rest ty

/-- Dictionary membership test `key_type in type_keys`. -/
def containsType (bs : Buckets) (ty : String) : Bool :=
  bs.any (fun e => decide (e.1 = ty))

/-- `type_keys[key_type].append((mem, key))`: append to the bucket of `ty`,
creating the entry (at the end, in insertion order) when absent. -/
def appendObs : Buckets → String → Obs → Buckets
  | [], ty, p => [(ty, [p])]
  | (t, l) :: rest, ty, p =>
    if t = ty then (t, l ++ [p]) :: rest else (t, l) :: appendObs rest ty p

/-- The mutable scan state: `type_keys`, `scanned`, `errors`. -/
structure Session where
  type_keys : Buckets
  scanned : Nat
  errors : Nat
deriving DecidableEq

/-- The state right before the scan loop: empty buckets, zero counters. -/
def initSession : Session := ⟨[], 0, 0⟩

/-- Body of the per-key loop: on an exception from either inspection call,
`errors += 1`; otherwise, when `mem` is truthy, append `(mem, key)` to the
bucket of the key's type and `scanned += 1`; a falsy `mem` does nothing. -/
def processKey (st : Session) (it : Item) : Session :=
  match it.2 with
  | .error _ => { st with errors := st.errors + 1 }
  | .ok (mem, ty) =>
    match mem with
    | some m =>
      if m ≠ 0 then
        { st with
            type_keys := appendObs st.type_keys ty (m, it.1)
            scanned := st.scanned + 1 }
      else st
    | none => st

/-- The inner `for key in keys:` loop over one batch returned by `r.scan`. -/
def processBatch (st : Session) (b : List Item) : Session :=
  b.foldl processKey st

/-- The `while True:` scan loop, driven by the store's response sequence:
each entry is one `r.scan` response `(returned cursor, batch)`. The loop
processes the batch, then breaks when the returned cursor is `0`. The result
is the final session and the number of scan calls performed; `none` means the
response sequence was exhausted with no returned cursor equal to `0` (the
loop would keep calling the store). -/
def scanRun : List (Nat × List Item) → Session → Option (Session × Nat)
  | [], _ => none
  | (c, b) :: rest, st =>
    let st1 := processBatch st b
    if c = 0 then some (st1, 1)
    else
      match scanRun rest st1 with
      | none => none
      | some (s, n) => some (s, n + 1)

/-- The descending order realised by `sorted(type_keys[key_type], reverse=True)`
at line 81: Python compares `(mem, key)` tuples lexicographically, so
`rank a b` states that `a` sorts no later than `b`, i.e. `a` is at least `b`
in the lexicographic order on `(memoryBytes, name)`. -/
def rank (a b : Obs) : Prop :=
  b.1 < a.1 ∨ (a.1 = b.1 ∧ b.2 ≤ a.2)

instance : DecidableRel rank := fun a b => by
  unfold rank; infer_instance

instance : IsTotal Obs rank :=
  ⟨fun a b => by
    unfold rank
    rcases Nat.lt_trichotomy a.1 b.1 with h | h | h
    · exact Or.inr (Or.inl h)
    · rcases le_total a.2 b.2 with h2 | h2
      · exact Or.inr (Or.inr ⟨h.symm, h2⟩)
      · exact Or.inl (Or.inr ⟨h, h2⟩)
    · exact Or.inl (Or.inl h)⟩

instance : IsTrans Obs rank :=
  ⟨fun a b c hab hbc => by
    unfold rank at *
    rcases hab with h1 | ⟨h1, h1s⟩ <;> rcases hbc with h2 | ⟨h2, h2s⟩
    · exact Or.inl (h2.trans h1)
    · exact Or.inl (by omega)
    · exact Or.inl (by omega)
    · exact Or.inr ⟨by omega, h2s.trans h1s⟩⟩

instance : IsAntisymm Obs rank :=
  ⟨fun a b hab hba => by
    unfold rank at *
    have h1 : a.1 = b.1 := by omega
    have h2 : a.2 = b.2 := by
      rcases hab with h | ⟨_, h⟩
      · omega
      · rcases hba with h3 | ⟨_, h3⟩
        · omega
        · exact le_antisymm h3 h
    exact Prod.ext h1 h2⟩

/-- `sorted(type_keys[key_type], reverse=True)`: the bucket sorted descending
by `(memoryBytes, name)`. -/
def sortDesc (l : List Obs) : List Obs :=
  List.insertionSort rank l

/-- `sorted(type_keys[key_type], reverse=True)[:10]`: the per-type top-10. -/
def topK (l : List Obs) : List Obs :=
  (sortDesc l).take 10

/-- `sum(m for m, _ in l)`: total memory of a bucket (`total_mem`). -/
def sumMem (l : List Obs) : Nat :=
  (l.map Prod.fst).sum

/-- The fixed iteration order of the per-type report loop at line 77. -/
def displayOrder : List String :=
  ["string", "list", "set", "zset", "hash", "stream"]

/-- The types for which the report loop renders a ranked table, in render
order: iterate the six fixed types, skipping a type absent from `type_keys`
and a type whose `sorted_keys` came out empty. -/
def reportedTypes (bs : Buckets) : List String :=
  displayOrder.filter
    (fun t => containsType bs t && !(topK (getBucket bs t)).isEmpty)

/-- The type tags having a bucket, in insertion order: `type_keys.keys()`. -/
def observedTypes (bs : Buckets) : List String :=
  bs.map Prod.fst

/-- Whether an item's inspection raised an exception. -/
def isErrItem (it : Item) : Bool :=
  match it.2 with
  | .error _ => true
  | .ok _ => false

/-- Whether an item's inspection succeeded with a truthy (positive) memory
footprint, so that it is aggregated. -/
def isPosItem (it : Item) : Bool :=
  match it.2 with
  | .error _ => false
  | .ok (mem, _) => truthy mem

/-- Total number of observations stored across all buckets. -/
def totalBucketCount (bs : Buckets) : Nat :=
  (bs.map (fun e => e.2.length)).sum

/-- Modelled from the spec, section 4.3 Top-K Aggregator: the per-type state
of the reference bounded aggregator — `topK` (a sorted sequence of at most
K = 10 observations), `totalCount` and `totalBytes`. -/
structure SpecBucket where
  topK : List Obs
  totalCount : Nat
  totalBytes : Nat
deriving DecidableEq

/-- Modelled from the spec, section 4.3 `observe`: increment `totalCount`,
add to `totalBytes` unconditionally; insert into `topK` maintaining sort
order, and if the resulting length exceeds K = 10, drop the smallest element
by the same `(memoryBytes, name)` order — `topK` being sorted descending,
the smallest element is the last one. -/
def specObserve (b : SpecBucket) (p : Obs) : SpecBucket where
  topK :=
    if 10 < (List.orderedInsert rank p b.topK).length then
      (List.orderedInsert rank p b.topK).dropLast
    else List.orderedInsert rank p b.topK
  totalCount := b.totalCount + 1
  totalBytes := b.totalBytes + p.1

/-- Modelled from the spec: feeding a sequence of observations of one type
through the bounded aggregator, starting from an empty bucket. -/
def specAggregate (l : List Obs) : SpecBucket :=
  l.foldl specObserve ⟨[], 0, 0⟩

/-- Streaming full sort: folding `orderedInsert` over the observations in
arrival order (the unbounded counterpart of the spec aggregator's `topK`). -/
def streamSort (l : List Obs) : List Obs :=
  l.foldl (fun acc p => List.orderedInsert rank p acc) []

/-! ## General lemmas about the ranking and the sort -/

theorem sortDesc_sorted (l : List Obs) : List.Sorted rank (sortDesc l) :=
  List.sorted_insertionSort rank l

theorem sortDesc_perm (l : List Obs) : (sortDesc l).Perm l :=
  List.perm_insertionSort rank l

theorem sortDesc_eq_of_perm {l₁ l₂ : List Obs} (h : l₁.Perm l₂) :
    sortDesc l₁ = sortDesc l₂ :=
  List.eq_of_perm_of_sorted
    ((sortDesc_perm l₁).trans (h.trans (sortDesc_perm l₂).symm))
    (sortDesc_sorted l₁) (sortDesc_sorted l₂)

theorem sumMem_eq_of_perm {l₁ l₂ : List Obs} (h : l₁.Perm l₂) :
    sumMem l₁ = sumMem l₂ :=
  (h.map Prod.fst).sum_eq

theorem topK_sorted (l : List Obs) : List.Sorted rank (topK l) :=
  List.Pairwise.sublist (List.take_sublist 10 (sortDesc l)) (sortDesc_sorted l)

theorem rank_fst_le {a b : Obs} (h : rank a b) : b.1 ≤ a.1 := by
  unfold rank at h; omega

/-! ## Claim theorems: ranking (C1, C2, C3) -/

/-- Claim C1: for every type bucket, feeding the same multiset of
`(memoryBytes, name)` observations in any arrival order yields the identical
final `topK` sequence and identical `totalCount` (bucket length) and
`totalBytes` (bucket memory sum) for that type. -/
theorem aggregation_order_independent (l₁ l₂ : List Obs) (h : l₁.Perm l₂) :
    topK l₁ = topK l₂ ∧ l₁.length = l₂.length ∧ sumMem l₁ = sumMem l₂ :=
  ⟨by unfold topK; rw [sortDesc_eq_of_perm h], h.length_eq, sumMem_eq_of_perm h⟩

theorem aggregation_order_independent_witness :
    topK [((2 : Nat), "b"), ((1 : Nat), "a")] =
      topK [((1 : Nat), "a"), ((2 : Nat), "b")] ∧
    ([((2 : Nat), "b"), ((1 : Nat), "a")] : List Obs).length =
      ([((1 : Nat), "a"), ((2 : Nat), "b")] : List Obs).length ∧
    sumMem [((2 : Nat), "b"), ((1 : Nat), "a")] =
      sumMem [((1 : Nat), "a"), ((2 : Nat), "b")] :=
  aggregation_order_independent _ _ (List.Perm.swap _ _ _)

/-- Claim C2: in the final `topK` of any bucket, any two observations with
equal `memoryBytes` appear ordered by descending key name: whenever `a`
precedes `b` in `topK` and their memories are equal, `b`'s name is at most
`a`'s name. -/
theorem topK_tie_break (l : List Obs) :
    (topK l).Pairwise (fun a b : Obs => a.1 = b.1 → b.2 ≤ a.2) := by
  refine (topK_sorted l).imp ?_
  intro a b hab heq
  unfold rank at hab
  rcases hab with h | ⟨_, h⟩
  · omega
  · exact h

/-- Claim C3: for every bucket contents `l`: `topK l` is sorted descending by
`(memoryBytes, name)`, has length at most 10, every element of it has
`memoryBytes` at least every dropped (non-top-K) observation's `memoryBytes`,
`totalCount` (the bucket length) is at least the `topK` length, and
`totalBytes` (the bucket memory sum) is at least the `topK` memory sum. -/
theorem topK_invariants (l : List Obs) :
    List.Sorted rank (topK l) ∧
    (topK l).length ≤ 10 ∧
    (∀ a ∈ topK l, ∀ b ∈ (sortDesc l).drop 10, b.1 ≤ a.1) ∧
    (topK l).length ≤ l.length ∧
    sumMem (topK l) ≤ sumMem l := by
  refine ⟨topK_sorted l, ?_, ?_, ?_, ?_⟩
  · unfold topK
    rw [List.length_take]
    exact min_le_left _ _
  · intro a ha b hb
    exact rank_fst_le ((sortDesc_sorted l).rel_of_mem_take_of_mem_drop ha hb)
  · unfold topK
    rw [List.length_take]
    calc min 10 (sortDesc l).length ≤ (sortDesc l).length := min_le_right _ _
      _ = l.length := (sortDesc_perm l).length_eq
  · have hsplit : sumMem (sortDesc l) = sumMem (topK l) + sumMem ((sortDesc l).drop 10) := by
      unfold sumMem topK
      rw [← List.sum_append, ← List.map_append, List.take_append_drop]
    have hperm : sumMem (sortDesc l) = sumMem l := sumMem_eq_of_perm (sortDesc_perm l)
    omega

/-! ## Refinement of the spec's bounded aggregator (C4) -/

theorem orderedInsert_take (a : Obs) :
    ∀ (t : List Obs) (k : Nat),
      (List.orderedInsert rank a (t.take k)).take k =
        (List.orderedInsert rank a t).take k := by
  intro t
  induction t with
  | nil => intro k; simp
  | cons b t ih =>
    intro k
    cases k with
    | zero => simp
    | succ k =>
      by_cases h : rank a b
      · simp only [List.take_succ_cons, List.orderedInsert, if_pos h]
        cases k with
        | zero => simp
        | succ k =>
          simp only [List.take_succ_cons, List.take_take]
          rw [min_eq_left (Nat.le_succ k)]
      · simp only [List.take_succ_cons, List.orderedInsert, if_neg h]
        rw [ih k]

theorem specObserve_topK_eq (b : SpecBucket) (p : Obs)
    (hb : b.topK.length ≤ 10) :
    (specObserve b p).topK = (List.orderedInsert rank p b.topK).take 10 := by
  show (if 10 < (List.orderedInsert rank p b.topK).length then
      (List.orderedInsert rank p b.topK).dropLast
    else List.orderedInsert rank p b.topK) = _
  have hlen : (List.orderedInsert rank p b.topK).length = b.topK.length + 1 :=
    List.orderedInsert_length rank b.topK p
  by_cases h : 10 < (List.orderedInsert rank p b.topK).length
  · rw [if_pos h, List.dropLast_eq_take, hlen]
    have : b.topK.length = 10 := by omega
    rw [this]
  · rw [if_neg h, List.take_of_length_le (by omega)]

theorem specAggregate_loop :
    ∀ (l : List Obs) (b : SpecBucket) (s : List Obs),
      b.topK = s.take 10 →
      (List.foldl specObserve b l).topK =
        (l.foldl (fun acc p => List.orderedInsert rank p acc) s).take 10 ∧
      (List.foldl specObserve b l).totalCount = b.totalCount + l.length ∧
      (List.foldl specObserve b l).totalBytes = b.totalBytes + sumMem l := by
  intro l
  induction l with
  | nil =>
    intro b s hb
    refine ⟨by simpa using hb, by simp, by simp [sumMem]⟩
  | cons p l ih =>
    intro b s hb
    have hblen : b.topK.length ≤ 10 := by
      rw [hb, List.length_take]; exact min_le_left _ _
    have hstep : (specObserve b p).topK = (List.orderedInsert rank p s).take 10 := by
      rw [specObserve_topK_eq b p hblen, hb, orderedInsert_take]
    obtain ⟨h1, h2, h3⟩ := ih (specObserve b p) (List.orderedInsert rank p s) hstep
    refine ⟨by simpa using h1, ?_, ?_⟩
    · rw [List.foldl_cons, h2]
      show b.totalCount + 1 + l.length = b.totalCount + (l.length + 1)
      omega
    · rw [List.foldl_cons, h3]
      show b.totalBytes + p.1 + sumMem l = b.totalBytes + sumMem (p :: l)
      have : sumMem (p :: l) = p.1 + sumMem l := by simp [sumMem]
      omega

theorem streamSort_loop_sorted :
    ∀ (l s : List Obs), List.Sorted rank s →
      List.Sorted rank (l.foldl (fun acc p => List.orderedInsert rank p acc) s) := by
  intro l
  induction l with
  | nil => intro s hs; simpa using hs
  | cons p l ih =>
    intro s hs
    simpa using ih (List.orderedInsert rank p s) (List.Sorted.orderedInsert p s hs)

theorem streamSort_loop_perm :
    ∀ (l s : List Obs),
      (l.foldl (fun acc p => List.orderedInsert rank p acc) s).Perm (l ++ s) := by
  intro l
  induction l with
  | nil => intro s; simp
  | cons p l ih =>
    intro s
    simp only [List.foldl_cons, List.cons_append]
    have h1 := ih (List.orderedInsert rank p s)
    have h2 : (l ++ List.orderedInsert rank p s).Perm (l ++ (p :: s)) :=
      (List.perm_orderedInsert rank p s).append_left l
    have h3 : (l ++ (p :: s)).Perm (p :: (l ++ s)) := List.perm_middle
    exact h1.trans (h2.trans h3)

theorem streamSort_eq_sortDesc (l : List Obs) : streamSort l = sortDesc l := by
  refine List.eq_of_perm_of_sorted ?_ ?_ (sortDesc_sorted l)
  · refine ((streamSort_loop_perm l []).trans ?_).trans (sortDesc_perm l).symm
    simp
  · exact streamSort_loop_sorted l [] List.sorted_nil

/-- Claim C4: for every observation sequence of one type, the code's strategy
of accumulating all `(memoryBytes, name)` pairs unboundedly and sorting
descending and truncating to 10 once at the end produces exactly the final
`topK`, `totalCount` and `totalBytes` of the spec's reference bounded
aggregator, which keeps a size-at-most-10 sorted sequence and drops the
smallest element on overflow. -/
theorem code_refines_bounded_aggregator (l : List Obs) :
    (specAggregate l).topK = topK l ∧
    (specAggregate l).totalCount = l.length ∧
    (specAggregate l).totalBytes = sumMem l := by
  obtain ⟨h1, h2, h3⟩ :=
    specAggregate_loop l ⟨[], 0, 0⟩ [] (by simp)
  refine ⟨?_, by simpa [specAggregate] using h2, by simpa [specAggregate] using h3⟩
  show (List.foldl specObserve ⟨[], 0, 0⟩ l).topK = topK l
  rw [h1]
  have h := streamSort_eq_sortDesc l
  unfold streamSort at h
  rw [h]
  rfl

/-! ## Scan-loop termination (C5) -/

/-- Claim C5: the scan loop terminates exactly when a returned cursor equals
zero again. For every response sequence whose returned cursors reach `0`
(first at position `pre.length`), the loop makes exactly `pre.length + 1`
scan calls, processes exactly the batches returned by those calls, and
stops; instantiated at the cursor sequence `0 → 5 → 0` this gives exactly
two calls, both batches processed. -/
theorem scan_terminates_at_first_zero (pre : List (Nat × List Item))
    (b : List Item) (post : List (Nat × List Item)) (st : Session)
    (h : ∀ r ∈ pre, r.1 ≠ 0) :
    scanRun (pre ++ (0, b) :: post) st =
      some ((pre.map Prod.snd ++ [b]).foldl processBatch st, pre.length + 1) := by
  revert h
  induction pre generalizing st with
  | nil =>
    intro _
    simp [scanRun]
  | cons cb pre ih =>
    intro h
    obtain ⟨c, bb⟩ := cb
    have hc : c ≠ 0 := h (c, bb) (List.mem_cons_self _ _)
    have hrest : ∀ r ∈ pre, r.1 ≠ 0 := fun r hr => h r (List.mem_cons_of_mem _ hr)
    simp only [List.cons_append, scanRun, List.append_eq]
    rw [if_neg hc, ih (processBatch st bb) hrest]
    simp

theorem scan_terminates_at_first_zero_witness :
    scanRun [(5, [("k1", Except.ok (some 100, "string"))]),
             (0, [("k2", Except.ok (some 50, "list"))])] initSession =
      some (⟨[("string", [(100, "k1")]), ("list", [(50, "k2")])], 2, 0⟩, 2) := by
  have h := scan_terminates_at_first_zero
    [(5, [("k1", Except.ok (some 100, "string"))])]
    [("k2", Except.ok (some 50, "list"))] [] initSession (by decide)
  exact h

/-! ## Error tolerance (C6) -/

theorem processKey_errors (st : Session) (it : Item) :
    (processKey st it).errors = st.errors + (if isErrItem it then 1 else 0) := by
  obtain ⟨name, insp⟩ := it
  cases insp with
  | error e => simp [processKey, isErrItem]
  | ok v =>
    obtain ⟨mem, ty⟩ := v
    cases mem with
    | none => simp [processKey, isErrItem]
    | some m =>
      by_cases hm : m = 0
      · subst hm; simp [processKey, isErrItem]
      · simp [processKey, isErrItem, hm]

theorem processKey_scanned (st : Session) (it : Item) :
    (processKey st it).scanned = st.scanned + (if isPosItem it then 1 else 0) := by
  obtain ⟨name, insp⟩ := it
  cases insp with
  | error e => simp [processKey, isPosItem]
  | ok v =>
    obtain ⟨mem, ty⟩ := v
    cases mem with
    | none => simp [processKey, isPosItem, truthy]
    | some m =>
      by_cases hm : m = 0
      · subst hm; simp [processKey, isPosItem, truthy]
      · simp [processKey, isPosItem, truthy, hm]

theorem processBatch_errors :
    ∀ (items : List Item) (st : Session),
      (processBatch st items).errors = st.errors + items.countP isErrItem := by
  intro items
  induction items with
  | nil => intro st; simp [processBatch]
  | cons it items ih =>
    intro st
    have hstep : processBatch st (it :: items) = processBatch (processKey st it) items := rfl
    rw [hstep, ih (processKey st it), processKey_errors, List.countP_cons]
    by_cases h : isErrItem it <;> simp [h] <;> omega

theorem processBatch_scanned :
    ∀ (items : List Item) (st : Session),
      (processBatch st items).scanned = st.scanned + items.countP isPosItem := by
  intro items
  induction items with
  | nil => intro st; simp [processBatch]
  | cons it items ih =>
    intro st
    have hstep : processBatch st (it :: items) = processBatch (processKey st it) items := rfl
    rw [hstep, ih (processKey st it), processKey_scanned, List.countP_cons]
    by_cases h : isPosItem it <;> simp [h] <;> omega

theorem processBatch_type_keys_congr :
    ∀ (items : List Item) (st₁ st₂ : Session),
      st₁.type_keys = st₂.type_keys →
      (processBatch st₁ items).type_keys = (processBatch st₂ items).type_keys := by
  intro items
  induction items with
  | nil => intro _ _ h; exact h
  | cons it items ih =>
    intro st₁ st₂ h
    apply ih
    obtain ⟨name, insp⟩ := it
    cases insp with
    | error e => simpa [processKey] using h
    | ok v =>
      obtain ⟨mem, ty⟩ := v
      cases mem with
      | none => simpa [processKey] using h
      | some m =>
        by_cases hm : m = 0
        · subst hm; simpa [processKey] using h
        · simp [processKey, hm, h]

theorem processBatch_type_keys_filter :
    ∀ (items : List Item) (st : Session),
      (processBatch st items).type_keys =
        (processBatch st (items.filter (fun it => !isErrItem it))).type_keys := by
  intro items
  induction items with
  | nil => intro _; rfl
  | cons it items ih =>
    intro st
    have hstep : processBatch st (it :: items) = processBatch (processKey st it) items := rfl
    by_cases h : isErrItem it
    · have hdrop : (it :: items).filter (fun it => !isErrItem it) =
          items.filter (fun it => !isErrItem it) := by
        simp [List.filter_cons, h]
      have hkeys : (processKey st it).type_keys = st.type_keys := by
        obtain ⟨name, insp⟩ := it
        cases insp with
        | error e => rfl
        | ok v => simp [isErrItem] at h
      rw [hdrop, hstep]
      rw [processBatch_type_keys_congr items (processKey st it) st hkeys]
      exact ih st
    · have hkeep : (it :: items).filter (fun it => !isErrItem it) =
          it :: items.filter (fun it => !isErrItem it) := by
        simp [List.filter_cons, h]
      rw [hkeep, hstep]
      exact ih (processKey st it)

theorem err_not_pos (it : Item) : isErrItem it = true → isPosItem it = false := by
  obtain ⟨n, insp⟩ := it
  cases insp <;> simp [isErrItem, isPosItem]

theorem pos_not_err (it : Item) : isPosItem it = true → isErrItem it = false := by
  obtain ⟨n, insp⟩ := it
  cases insp <;> simp [isErrItem, isPosItem]

/-- Claim C6: if, out of `M` keys listed by the scanner, exactly `N`
inspections raise and every other key reports a positive memory footprint,
then the run completes the batch (processing is total), `errors` equals `N`
(the count of raising items), `scanned` equals `M - N`, and the buckets are
exactly those produced by the `M - N` successful observations alone. -/
theorem inspection_failures_are_counted (items : List Item)
    (h : ∀ it ∈ items, isErrItem it = true ∨ isPosItem it = true) :
    (processBatch initSession items).errors = items.countP isErrItem ∧
    (processBatch initSession items).scanned =
      items.length - items.countP isErrItem ∧
    (processBatch initSession items).type_keys =
      (processBatch initSession (items.filter (fun it => !isErrItem it))).type_keys := by
  refine ⟨by simpa [initSession] using processBatch_errors items initSession, ?_,
    processBatch_type_keys_filter items initSession⟩
  have hs := processBatch_scanned items initSession
  have hpart := List.length_eq_countP_add_countP isErrItem items
  have hcong : items.countP isPosItem =
      items.countP (fun a => decide ¬isErrItem a = true) := by
    apply List.countP_congr
    intro it hit
    rcases h it hit with he | hp
    · simp [he, err_not_pos it he]
    · simp [hp, pos_not_err it hp]
  rw [hs, hcong]
  simp only [initSession]
  omega

theorem inspection_failures_are_counted_witness :
    (processBatch initSession
        [("a", Except.ok (some 10, "string")), ("b", Except.error ()),
         ("c", Except.ok (some 5, "hash"))]).errors =
      ([("a", Except.ok (some 10, "string")), ("b", Except.error ()),
        ("c", Except.ok (some 5, "hash"))] : List Item).countP isErrItem ∧
    (processBatch initSession
        [("a", Except.ok (some 10, "string")), ("b", Except.error ()),
         ("c", Except.ok (some 5, "hash"))]).scanned =
      ([("a", Except.ok (some 10, "string")), ("b", Except.error ()),
        ("c", Except.ok (some 5, "hash"))] : List Item).length -
      ([("a", Except.ok (some 10, "string")), ("b", Except.error ()),
        ("c", Except.ok (some 5, "hash"))] : List Item).countP isErrItem ∧
    (processBatch initSession
        [("a", Except.ok (some 10, "string")), ("b", Except.error ()),
         ("c", Except.ok (some 5, "hash"))]).type_keys =
      (processBatch initSession
        (([("a", Except.ok (some 10, "string")), ("b", Except.error ()),
           ("c", Except.ok (some 5, "hash"))] : List Item).filter
          (fun it => !isErrItem it))).type_keys :=
  inspection_failures_are_counted _ (by decide)

/-! ## Zero or absent memory readings (C7, C10) -/

/-- Claim C7: a key whose memory query reports zero or `None` is treated as
not observed — it is appended to no type bucket and `scanned` is not
incremented, so it contributes nothing to any `topK`, `totalCount` or
`totalBytes`. -/
theorem zero_memory_key_not_observed (st : Session) (name ty : String)
    (mem : Option Nat) (h : truthy mem = false) :
    (processKey st (name, Except.ok (mem, ty))).type_keys = st.type_keys ∧
    (processKey st (name, Except.ok (mem, ty))).scanned = st.scanned := by
  cases mem with
  | none => exact ⟨rfl, rfl⟩
  | some m =>
    have hm : m = 0 := by simpa [truthy] using h
    subst hm
    simp [processKey]

theorem zero_memory_key_not_observed_witness :
    (processKey initSession ("gone", Except.ok (none, "string"))).type_keys =
      initSession.type_keys ∧
    (processKey initSession ("gone", Except.ok (none, "string"))).scanned =
      initSession.scanned :=
  zero_memory_key_not_observed initSession "gone" "string" none rfl

/-- Claim C10: processing a key whose memory query succeeds but is falsy
(zero or `None`) leaves the entire session unchanged — buckets, `scanned`
and `errors` all as before: such a key counts neither as an observation nor
as a failure. -/
theorem zero_memory_key_frame (st : Session) (name ty : String)
    (mem : Option Nat) (h : truthy mem = false) :
    processKey st (name, Except.ok (mem, ty)) = st := by
  cases mem with
  | none => rfl
  | some m =>
    have hm : m = 0 := by simpa [truthy] using h
    subst hm
    simp [processKey]

theorem zero_memory_key_frame_witness :
    processKey ⟨[("hash", [(3, "h1")])], 1, 2⟩ ("k", Except.ok (some 0, "hash")) =
      ⟨[("hash", [(3, "h1")])], 1, 2⟩ :=
  zero_memory_key_frame _ "k" "hash" (some 0) rfl

/-! ## Scanned counter versus bucket contents (C9) -/

theorem totalBucketCount_appendObs :
    ∀ (bs : Buckets) (ty : String) (p : Obs),
      totalBucketCount (appendObs bs ty p) = totalBucketCount bs + 1 := by
  intro bs
  induction bs with
  | nil => intro ty p; simp [appendObs, totalBucketCount]
  | cons e bs ih =>
    intro ty p
    obtain ⟨t, l⟩ := e
    by_cases h : t = ty
    · simp [appendObs, h, totalBucketCount]
      omega
    · simp only [appendObs, if_neg h, totalBucketCount, List.map_cons, List.sum_cons]
      have hh := ih ty p
      simp only [totalBucketCount] at hh
      omega

/-- Claim C9: the invariant "`scanned` equals the total number of
observations stored across all type buckets" holds after processing any
items from any state satisfying it (hence at every point of the scan and at
its end, starting from the initial empty session): each successful
positive-memory observation increments `scanned` exactly once and appends
to exactly one bucket. -/
theorem scanned_matches_bucket_contents (st : Session) (items : List Item)
    (h : st.scanned = totalBucketCount st.type_keys) :
    (processBatch st items).scanned =
      totalBucketCount (processBatch st items).type_keys := by
  revert st
  induction items with
  | nil => intro st h; exact h
  | cons it items ih =>
    intro st h
    apply ih
    obtain ⟨name, insp⟩ := it
    cases insp with
    | error e => simpa [processKey] using h
    | ok v =>
      obtain ⟨mem, ty⟩ := v
      cases mem with
      | none => simpa [processKey] using h
      | some m =>
        by_cases hm : m = 0
        · subst hm; simpa [processKey] using h
        · simp [processKey, hm, totalBucketCount_appendObs, h]

theorem scanned_matches_bucket_contents_witness :
    (processBatch initSession
        [("a", Except.ok (some 3, "set")), ("b", Except.error ())]).scanned =
      totalBucketCount (processBatch initSession
        [("a", Except.ok (some 3, "set")), ("b", Except.error ())]).type_keys :=
  scanned_matches_bucket_contents initSession _ rfl

/-! ## Report rendering order (C8) -/

theorem sortDesc_eq_nil_iff (l : List Obs) : sortDesc l = [] ↔ l = [] := by
  constructor
  · intro h
    have hl := (sortDesc_perm l).length_eq
    rw [h] at hl
    exact List.length_eq_zero.mp hl.symm
  · intro h
    subst h
    rfl

theorem topK_eq_nil_iff (l : List Obs) : topK l = [] ↔ l = [] := by
  unfold topK
  rw [List.take_eq_nil_iff, sortDesc_eq_nil_iff]
  simp

theorem getBucket_eq_nil_of_not_contains :
    ∀ (bs : Buckets) (ty : String), containsType bs ty = false → getBucket bs ty = [] := by
  intro bs
  induction bs with
  | nil => intro ty _; rfl
  | cons e bs ih =>
    intro ty h
    obtain ⟨t, l⟩ := e
    simp [containsType] at h
    obtain ⟨h1, h2⟩ := h
    simp only [getBucket, if_neg h1]
    exact ih ty (by simpa [containsType] using h2)

/-- Claim C8 counterexample: a session that observed only the type
`"mytype"` (not among the six fixed types) has that type in its buckets, yet
the report loop renders no ranked table at all — contradicting the claim
that every observed type gets a ranked table. -/
theorem report_skips_nonstandard_type :
    observedTypes (processBatch initSession
        [("k1", Except.ok (some 5, "mytype"))]).type_keys = ["mytype"] ∧
    reportedTypes (processBatch initSession
        [("k1", Except.ok (some 5, "mytype"))]).type_keys = [] := by
  exact ⟨rfl, rfl⟩

/-- Claim C8 (amended): the report renders a per-type ranked table only for
observed types among the six fixed ones — the rendered tables follow the
fixed display order string, list, set, zset, hash, stream, and a type is
rendered exactly when it is one of those six and its bucket is nonempty;
any other observed type gets no ranked table. -/
theorem report_renders_only_fixed_six (bs : Buckets) :
    (reportedTypes bs).Sublist displayOrder ∧
    (∀ t, t ∈ reportedTypes bs ↔ t ∈ displayOrder ∧ getBucket bs t ≠ []) := by
  refine ⟨List.filter_sublist _, ?_⟩
  intro t
  rw [reportedTypes, List.mem_filter]
  constructor
  · rintro ⟨hd, hp⟩
    rw [Bool.and_eq_true] at hp
    obtain ⟨hc, hne⟩ := hp
    refine ⟨hd, ?_⟩
    intro hnil
    rw [hnil] at hne
    simp [topK, sortDesc] at hne
  · rintro ⟨hd, hne⟩
    refine ⟨hd, ?_⟩
    have hc : containsType bs t = true := by
      by_contra hc
      rw [Bool.not_eq_true] at hc
      exact hne (getBucket_eq_nil_of_not_contains bs t hc)
    have htk : topK (getBucket bs t) ≠ [] := fun he =>
      hne ((topK_eq_nil_iff (getBucket bs t)).mp he)
    have hemp : (topK (getBucket bs t)).isEmpty = false := by
      cases hcase : topK (getBucket bs t) with
      | nil => exact absurd hcase htk
      | cons a l => rfl
    rw [hc, hemp]
    rfl

end RedisTopKeys
